import Mathlib

/-!
# Verification of the marinesafety_hallucination file pipeline

Shallow embedding of the filename-classification, pair-matching and
report-aggregation logic of the repository's scripts
(`organize_files.py`, `rename_files.py`, `summaryEvaluation.py`,
`summaryExtractor.py`, `AutomaticMetric.py`, `countHallucination.py`),
together with theorems settling the specification's claims about them.

Filenames and file contents are modelled as `List Char`; Python dicts that
map identifiers to paths are modelled as association lists with
insert-or-overwrite semantics; the external metric scorers and the `docx`
reader are treated as opaque parameters, exactly as the spec scopes them.
-/

namespace MarineSafety

/-- Python `str.lower()` applied to a character sequence (ASCII names). -/
def lowerStr (l : List Char) : List Char := l.map Char.toLower

/-- Python's substring test `p in s`. -/
def isSubstr (p s : List Char) : Bool := s.tails.any (fun t => p.isPrefixOf t)

/-! ## organize_files.py : FileOrganizer -/
/-- `FileOrganizer.__init__`: `self.shot_patterns`, in declaration order. -/
def shot_patterns : List (String × List String) :=
  [("oneshot", ["one-shot", "oneshot", "1-shot", "1shot"]),
   ("zeroshot", ["zero-shot", "zeroshot", "0-shot", "0shot"]),
   ("fewshot", ["few-shot", "fews-shot", "fewshot", "k-shot", "kshot"])]

/-- `FileOrganizer.__init__`: `self.model_patterns`, in declaration order. -/
def model_patterns : List (String × List String) :=
  [("llama", ["llama", "llama2", "llama-2"]),
   ("qwen", ["qwen", "qwen-7b", "qwen-14b"]),
   ("chatgpt", ["chatgpt", "chat", "gpt", "gpt-3.5", "gpt-4"])]

/-- `any(pattern.lower() in filename_lower for pattern in patterns)`. -/
def anyPatternMatches (patterns : List String) (filename_lower : List Char) : Bool :=
  patterns.any (fun p => isSubstr (lowerStr p.toList) filename_lower)

/-- The `for category, patterns in table.items(): ... break` loop of
`FileOrganizer.determine_categories`: the first table entry (in declaration
order) whose pattern list matches wins, later entries are never inspected. -/
def findCategory (tbl : List (String × List String)) (filename_lower : List Char) :
    Option String :=
  match tbl with
  | [] => none
  | (cat, ps) :: rest =>
    if anyPatternMatches ps filename_lower then some cat
    else findCategory rest filename_lower

/-- `FileOrganizer.determine_categories`. -/
def determine_categories (filename : List Char) : Option String × Option String :=
  (findCategory shot_patterns (lowerStr filename),
   findCategory model_patterns (lowerStr filename))

/-- `FileOrganizer.get_six_digit_number`: `re.search(r'\d{6}', filename)`,
i.e. the six-character window at the leftmost position where six
consecutive digits start (no boundary assertions around the window). -/
def get_six_digit_number : List Char → Option (List Char)
  | [] => none
  | c :: rest =>
    if ((c :: rest).take 6).length = 6 ∧ ((c :: rest).take 6).all Char.isDigit
    then some ((c :: rest).take 6)
    else get_six_digit_number rest

/-- The record a fully classified filename yields (spec's ClassifiedFile). -/
structure ClassifiedFile where
  shot_category : String
  model_category : String
  document_id : List Char
deriving DecidableEq, Repr

/-- `FileOrganizer.organize_files`, lines 102-114: a file is classified
exactly when shot category, model category and six-digit number are all
found (`if not all([shot_cat, model_cat, six_digit])` routes to the
unclassified bucket). -/
def classifyFile (filename : List Char) : Option ClassifiedFile :=
  match determine_categories filename, get_six_digit_number filename with
  | (some s, some m), some d => some ⟨s, m, d⟩
  | _, _ => none

/-- Spec-side reading for C1: `cat` is the first category in declaration
order of `tbl` any of whose patterns matches the (lowercased) filename. -/
def FirstMatchingCategory (tbl : List (String × List String))
    (filename_lower : List Char) (cat : String) : Prop :=
  ∃ pre ps post, tbl = pre ++ (cat, ps) :: post ∧
    anyPatternMatches ps filename_lower = true ∧
    ∀ e ∈ pre, anyPatternMatches e.2 filename_lower = false

/-- Spec-side reading for C2 (the claim's words): the first *maximal* run of
exactly six consecutive digits — the maximal digit segments of the filename
are enumerated left to right and the first one of length exactly 6 is taken. -/
def firstExactSixDigitRun (filename : List Char) : Option (List Char) :=
  ((filename.splitOnP (fun c => !c.isDigit)).filter (fun r => !r.isEmpty)).find?
    (fun r => r.length == 6)

/-- Six consecutive digits start at position `i` of the filename. -/
def SixDigitWindowAt (filename : List Char) (i : Nat) : Prop :=
  ((filename.drop i).take 6).length = 6 ∧
    ((filename.drop i).take 6).all Char.isDigit = true

/-! ## organize_files.py / summaryExtractor.py : run result and exit status -/
/-- `successful_moves` of `FileOrganizer.organize_files`: the counter is
incremented exactly once per classifiable filename (in both dry-run and
copy mode). -/
def successful_moves (files : List (List Char)) : Nat :=
  (files.filterMap classifyFile).length

/-- The Boolean `FileOrganizer.organize_files` returns: `False` when no text
file was found, otherwise `successful_moves > 0`. -/
def organize_files_result (files : List (List Char)) : Bool :=
  if files.isEmpty then false else decide (0 < successful_moves files)

/-- `main` of organize_files.py: `sys.exit(0 if success else 1)`. -/
def organizeExitCode (files : List (List Char)) : Nat :=
  if organize_files_result files then 0 else 1

/-- `DocumentProcessor.get_document_number`: `re.match(r'^\d{6}$', basename)`
on the stem of a candidate document. -/
def get_document_number (stem : List Char) : Option (List Char) :=
  if stem.length = 6 ∧ stem.all Char.isDigit then some stem else none

/-- `successful_extractions` of `DocumentProcessor.process_documents`,
abstracted over the opaque `docx` extraction: `extract i j` says whether
extracting title pattern `j` from document `i` succeeds end-to-end (text
found and file saved); the counter adds one per success. -/
def successful_extractions (docs : List (List Char)) (patternCount : Nat)
    (extract : Nat → Nat → Bool) : Nat :=
  ((List.range docs.length).map (fun i =>
    ((List.range patternCount).filter (fun j => extract i j)).length)).sum

/-- The Boolean `DocumentProcessor.process_documents` returns: `False` when
no document with a six-digit stem was found, otherwise `True` (the final
`return True` does not consult `successful_extractions`). -/
def process_documents_result (docs : List (List Char)) : Bool :=
  if docs.isEmpty then false else true

/-- `main` of summaryExtractor.py: `sys.exit(0 if success else 1)`. -/
def extractorExitCode (docs : List (List Char)) : Nat :=
  if process_documents_result docs then 0 else 1

/-! ## rename_files.py : FileRenamer -/
/-- One filesystem effect of `FileRenamer.rename_files`. -/
inductive FsAction where
  | mkdirOutput : FsAction
  | copy (src dst : List Char) : FsAction
deriving DecidableEq, Repr

/-- The first pass of `FileRenamer.rename_files` (lines 81-95): build
`rename_map`, returning `none` (the Python `return False`) as soon as a
generated output path collides with one already in `rename_map.values()`.
`newName` stands for `generate_new_name`, a pure function of the filename. -/
def firstPass (newName : List Char → List Char) :
    List (List Char) → List (List Char × List Char) →
    Option (List (List Char × List Char))
  | [], acc => some acc
  | f :: rest, acc =>
    if acc.any (fun e => decide (e.2 = newName f)) then none
    else firstPass newName rest (acc ++ [(f, newName f)])

/-- `FileRenamer.rename_files`: the Boolean it returns together with the
filesystem actions performed. The output directory is created and files are
copied only after the first pass completes without conflict, and never in
dry-run mode. -/
def rename_files_run (newName : List Char → List Char) (files : List (List Char))
    (dryRun : Bool) : Bool × List FsAction :=
  if files.isEmpty then (false, [])
  else
    match firstPass newName files [] with
    | none => (false, [])
    | some rmap =>
      if dryRun then (decide (0 < rmap.length), [])
      else (decide (0 < rmap.length),
            FsAction.mkdirOutput :: rmap.map (fun e => FsAction.copy e.1 e.2))

/-! ## summaryEvaluation.py : read_summaries -/
/-- A file of the reference directory. -/
structure RefFile where
  name : List Char
  content : List Char
deriving DecidableEq, Repr

/-- A file found under the generated base directory: the directory
components of its path relative to the base, its name, its content. -/
structure GenFile where
  dirs : List String
  name : List Char
  content : List Char
deriving DecidableEq, Repr

/-- `reference_pattern.search(ref_file)` for `(\d{6})\.txt$`: the name ends
in six digits followed by `.txt`; those six digits are the identifier. -/
def refIdentifier (name : List Char) : Option (List Char) :=
  if 10 ≤ name.length ∧ name.drop (name.length - 4) = (".txt".toList) ∧
      ((name.drop (name.length - 10)).take 6).all Char.isDigit
  then some ((name.drop (name.length - 10)).take 6)
  else none

/-- `generated_pattern.match(file)` for `^(\d{6})\.txt$`: the name is
exactly six digits followed by `.txt`. -/
def genIdentifier (name : List Char) : Option (List Char) :=
  if name.length = 10 ∧ (name.take 6).all Char.isDigit ∧
      name.drop 6 = (".txt".toList)
  then some (name.take 6)
  else none

/-- Python dict assignment `d[k] = v`: overwrite the value when the key is
already present (keys stay unique), append a fresh entry otherwise. -/
def dictInsert {α : Type} (m : List (List Char × α)) (k : List Char) (v : α) :
    List (List Char × α) :=
  if m.any (fun e => decide (e.1 = k)) then
    m.map (fun e => if e.1 = k then (k, v) else e)
  else m ++ [(k, v)]

/-- Python dict lookup `d.get(k)`. -/
def dictGet {α : Type} (m : List (List Char × α)) (k : List Char) : Option α :=
  (m.find? (fun e => decide (e.1 = k))).map (fun e => e.2)

/-- The keys of the modelled dict. -/
def dictKeys {α : Type} (m : List (List Char × α)) : List (List Char) :=
  m.map Prod.fst

/-- State of the reference-directory scan of `read_summaries`. -/
structure RefScanState where
  mapping : List (List Char × RefFile)
  dupWarnings : List (List Char)

/-- One step of the loop at summaryEvaluation.py lines 34-43: a file with a
matching name is inserted under its identifier, a duplicate warning being
printed first when the identifier is already mapped; non-matching files are
skipped. -/
def scanRefStep (st : RefScanState) (f : RefFile) : RefScanState :=
  match refIdentifier f.name with
  | none => st
  | some k =>
    { mapping := dictInsert st.mapping k f
      dupWarnings :=
        if st.mapping.any (fun e => decide (e.1 = k)) then st.dupWarnings ++ [k]
        else st.dupWarnings }

/-- The whole reference-directory scan. -/
def scanRefs (st : RefScanState) : List RefFile → RefScanState
  | [] => st
  | f :: rest => scanRefs (scanRefStep st f) rest

/-- `read_summaries`, first half: the reference mapping (and the duplicate
warnings) built from the files of the reference directory, scanned in
`os.listdir` order. -/
def read_reference_mapping (refs : List RefFile) : RefScanState :=
  scanRefs ⟨[], []⟩ refs

/-- Two reference files sharing the identifier 123456, for the concrete part
of C4. -/
def dupRefs : List RefFile :=
  [⟨("a_123456.txt".toList), ("first version".toList)⟩,
   ⟨("b_123456.txt".toList), ("second version".toList)⟩]

/-- The record appended to `summary_pairs` (lines 88-93). -/
structure SummaryPair where
  generated_summary : List Char
  reference_summary : List Char
  learning_mode : String
  model : String
deriving DecidableEq, Repr

/-- Python `str.strip()`: whitespace removed from both ends. -/
def stripStr (l : List Char) : List Char :=
  ((l.dropWhile Char.isWhitespace).reverse.dropWhile Char.isWhitespace).reverse

/-- Learning mode and model from the relative path (lines 56-70): with fewer
than three path components both are `Unknown`, else the first two directory
components. -/
def modeAndModel (g : GenFile) : String × String :=
  match g.dirs with
  | m :: mm :: _ => (m, mm)
  | _ => ("Unknown", "Unknown")

/-- The body of the generated-file loop of `read_summaries` for one file
(lines 49-97): `none` (no pair appended) when the name does not match
`^(\d{6})\.txt$`, when the reference lookup fails, or when either summary is
empty after stripping. -/
def pairOf (mapping : List (List Char × RefFile)) (g : GenFile) :
    Option SummaryPair :=
  match genIdentifier g.name with
  | none => none
  | some k =>
    match dictGet mapping k with
    | none => none
    | some rf =>
      if stripStr g.content = [] then none
      else if stripStr rf.content = [] then none
      else some ⟨stripStr g.content, stripStr rf.content,
                 (modeAndModel g).1, (modeAndModel g).2⟩

/-- The generated-tree traversal of `read_summaries`: the pair list in
traversal order together with the identifiers of matching generated files
whose reference was missing (each logged with a warning and skipped). -/
def processGens (mapping : List (List Char × RefFile)) :
    List GenFile → List SummaryPair × List (List Char)
  | [] => ([], [])
  | g :: rest =>
    let tail := processGens mapping rest
    match genIdentifier g.name with
    | none => tail
    | some k =>
      match dictGet mapping k with
      | none => (tail.1, k :: tail.2)
      | some rf =>
        if stripStr g.content = [] then tail
        else if stripStr rf.content = [] then tail
        else (⟨stripStr g.content, stripStr rf.content,
               (modeAndModel g).1, (modeAndModel g).2⟩ :: tail.1, tail.2)

/-- `read_summaries(reference_dir, generated_base_dir)`. -/
def read_summaries (refs : List RefFile) (gens : List GenFile) :
    List SummaryPair × List (List Char) :=
  processGens (read_reference_mapping refs).mapping gens

/-- Reference files with unique ids 100001 and 100002, for the concrete part
of C5. -/
def exampleRefs : List RefFile :=
  [⟨("100001.txt".toList), ("reference one".toList)⟩,
   ⟨("100002.txt".toList), ("reference two".toList)⟩]

/-- Generated files with ids 100001 and 999999, for the concrete part of
C5. -/
def exampleGens : List GenFile :=
  [⟨["oneshot", "llama"], ("100001.txt".toList), ("generated one".toList)⟩,
   ⟨["oneshot", "llama"], ("999999.txt".toList), ("generated mystery".toList)⟩]

/-! ## AutomaticMetric.py : results and ranking -/
/-- One entry of `results` (lines 82-90): grouping fields and the six metric
scores returned by the opaque external scorers, kept as exact rationals. -/
structure ScoreRecord where
  learning_model : String
  model : String
  file_name : List Char
  bleu : ℚ
  meteor : ℚ
  rougeW : ℚ
  bertP : ℚ
  bertR : ℚ
  bertF1 : ℚ
deriving DecidableEq, Repr

/-- `scores_sum = sum(score_data.values())` (line 81). -/
def sumScores (r : ScoreRecord) : ℚ :=
  r.bleu + r.meteor + r.rougeW + r.bertP + r.bertR + r.bertF1

/-- Stable insertion for Python's `sorted(..., key=..., reverse=True)`: the
element goes after every already-placed element with a strictly larger key
and before the first one without, so among equal keys earlier input order is
preserved — the stability CPython guarantees. -/
def insertDesc {α : Type} (key : α → ℚ) (x : α) : List α → List α
  | [] => [x]
  | y :: ys => if key x < key y then y :: insertDesc key x ys else x :: y :: ys

/-- The stable descending sort itself. -/
def sortDesc {α : Type} (key : α → ℚ) : List α → List α
  | [] => []
  | x :: xs => insertDesc key x (sortDesc key xs)

/-- `sorted(results, key=lambda x: x['sum'], reverse=True)` with each
record's original position in `results` attached: records are distinct
Python dict objects, and the position models that object identity. -/
def sortedRanking (rs : List ScoreRecord) : List (Nat × ScoreRecord) :=
  sortDesc (fun p => sumScores p.2) rs.enum

/-- The rank the loop at lines 92-94 writes into the record at original
position `i` of `results`: its 1-based position in the sorted order
(`enumerate(sorted(...), start=1)`). -/
def rankOf (rs : List ScoreRecord) (i : Nat) : Nat :=
  (sortedRanking rs).findIdx (fun e => e.1 == i) + 1

/-! ## countHallucination.py : HallucinationAnalyzer -/
/-- `len(re.findall(pattern, text))` for a literal tag pattern: scan left to
right and skip past each match (re.findall counts non-overlapping matches);
the fuel argument, set to the text length, makes the recursion structural. -/
def countTagAux (tag : List Char) : Nat → List Char → Nat
  | 0, _ => 0
  | _ + 1, [] => 0
  | fuel + 1, c :: rest =>
    if tag.isPrefixOf (c :: rest)
    then countTagAux tag fuel ((c :: rest).drop tag.length) + 1
    else countTagAux tag fuel rest

/-- Number of occurrences of a literal tag in a text. -/
def countTag (tag text : List Char) : Nat := countTagAux tag text.length text

/-- The per-type counters of `count_hallucinations` (defaultdict over the
six tags of `self.hallucination_types`). -/
structure HallCounts where
  uce : Nat
  oge : Nat
  uge : Nat
  nne : Nat
  dte : Nat
  mge : Nat
deriving DecidableEq, Repr

/-- `HallucinationAnalyzer.count_hallucinations`: the regexes `\[UCE\]` …
`\[MGE\]` match the literal bracketed tags. -/
def count_hallucinations (text : List Char) : HallCounts :=
  ⟨countTag ("[UCE]".toList) text, countTag ("[OGE]".toList) text,
   countTag ("[UGE]".toList) text, countTag ("[NNE]".toList) text,
   countTag ("[DTE]".toList) text, countTag ("[MGE]".toList) text⟩

/-- One text file of the two-level walk of `analyze_directories`. -/
structure HallFile where
  learning_model : String
  model : String
  file_name : List Char
  content : List Char
deriving DecidableEq, Repr

/-- One row of the per-file CSV. -/
structure HallRow where
  learning_model : String
  model : String
  file_name : List Char
  counts : HallCounts
deriving DecidableEq, Repr

/-- The rows `analyze_directories` accumulates, one per text file in walk
order. -/
def resultRows (files : List HallFile) : List HallRow :=
  files.map (fun f =>
    ⟨f.learning_model, f.model, f.file_name, count_hallucinations f.content⟩)

/-- `df['total_hallucinations']` (line 130): the row-wise sum of the six
count columns. -/
def rowTotal (r : HallRow) : Nat :=
  r.counts.uce + r.counts.oge + r.counts.uge + r.counts.nne + r.counts.dte +
    r.counts.mge

/-- The `groupby(['learning_model', 'model'])` key of a row. -/
def rowKey (r : HallRow) : String × String := (r.learning_model, r.model)

/-- The rows of one group. -/
def groupRows (rows : List HallRow) (k : String × String) : List HallRow :=
  rows.filter (fun r => decide (rowKey r = k))

/-- A `{hall}_sum` column of the summary: the group sum of one counter. -/
def groupSum (rows : List HallRow) (k : String × String)
    (sel : HallCounts → Nat) : Nat :=
  ((groupRows rows k).map (fun r => sel r.counts)).sum

/-- The `total_hallucinations_sum` column of the summary. -/
def groupTotalSum (rows : List HallRow) (k : String × String) : Nat :=
  ((groupRows rows k).map rowTotal).sum

/-- A `{hall}_mean` column: group sum over group size (exact rational;
pandas uses floats). -/
def groupMean (rows : List HallRow) (k : String × String)
    (sel : HallCounts → Nat) : ℚ :=
  (groupSum rows k sel : ℚ) / ((groupRows rows k).length : ℚ)

/-- The sample variance behind a `{hall}_std` column (pandas `std` uses
`ddof=1`); the std value written to the CSV is its square root and is
determined by it. -/
def groupVariance (rows : List HallRow) (k : String × String)
    (sel : HallCounts → Nat) : ℚ :=
  (((groupRows rows k).map
      (fun r => ((sel r.counts : ℚ) - groupMean rows k sel) ^ 2)).sum) /
    (((groupRows rows k).length : ℚ) - 1)

/-- A `{hall}_percentage` column (lines 164-167):
`{hall}_sum / total_hallucinations_sum * 100`. -/
def groupPercentage (rows : List HallRow) (k : String × String)
    (sel : HallCounts → Nat) : ℚ :=
  (groupSum rows k sel : ℚ) / (groupTotalSum rows k : ℚ) * 100

/-- The group keys in first-appearance order (the script sorts the frame by
(learning_model, model, file_name) beforehand, so this is also the sorted
key order pandas' groupby emits). -/
def summaryKeys (rows : List HallRow) : List (String × String) :=
  rows.foldl (fun ks r => if rowKey r ∈ ks then ks else ks ++ [rowKey r]) []

/-- One row of `create_summary`: the sum/mean/sample-variance aggregate of
each counter and of the total, the percentage columns, and the file count.
The CSV's std columns are the square roots of the variance fields. -/
structure SummaryRow where
  key : String × String
  uceSum : Nat
  ogeSum : Nat
  ugeSum : Nat
  nneSum : Nat
  dteSum : Nat
  mgeSum : Nat
  totalSum : Nat
  uceMean : ℚ
  ogeMean : ℚ
  ugeMean : ℚ
  nneMean : ℚ
  dteMean : ℚ
  mgeMean : ℚ
  totalMean : ℚ
  uceVar : ℚ
  ogeVar : ℚ
  ugeVar : ℚ
  nneVar : ℚ
  dteVar : ℚ
  mgeVar : ℚ
  totalVar : ℚ
  ucePct : ℚ
  ogePct : ℚ
  ugePct : ℚ
  nnePct : ℚ
  dtePct : ℚ
  mgePct : ℚ
  totalFiles : Nat

/-- `HallucinationAnalyzer.create_summary`: one aggregate row per group. -/
def create_summary (rows : List HallRow) : List SummaryRow :=
  (summaryKeys rows).map (fun k =>
    { key := k
      uceSum := groupSum rows k HallCounts.uce
      ogeSum := groupSum rows k HallCounts.oge
      ugeSum := groupSum rows k HallCounts.uge
      nneSum := groupSum rows k HallCounts.nne
      dteSum := groupSum rows k HallCounts.dte
      mgeSum := groupSum rows k HallCounts.mge
      totalSum := groupTotalSum rows k
      uceMean := groupMean rows k HallCounts.uce
      ogeMean := groupMean rows k HallCounts.oge
      ugeMean := groupMean rows k HallCounts.uge
      nneMean := groupMean rows k HallCounts.nne
      dteMean := groupMean rows k HallCounts.dte
      mgeMean := groupMean rows k HallCounts.mge
      totalMean := (groupTotalSum rows k : ℚ) / ((groupRows rows k).length : ℚ)
      uceVar := groupVariance rows k HallCounts.uce
      ogeVar := groupVariance rows k HallCounts.oge
      ugeVar := groupVariance rows k HallCounts.uge
      nneVar := groupVariance rows k HallCounts.nne
      dteVar := groupVariance rows k HallCounts.dte
      mgeVar := groupVariance rows k HallCounts.mge
      totalVar := (((groupRows rows k).map
          (fun r => ((rowTotal r : ℚ) -
            (groupTotalSum rows k : ℚ) / ((groupRows rows k).length : ℚ)) ^ 2)).sum) /
        (((groupRows rows k).length : ℚ) - 1)
      ucePct := groupPercentage rows k HallCounts.uce
      ogePct := groupPercentage rows k HallCounts.oge
      ugePct := groupPercentage rows k HallCounts.uge
      nnePct := groupPercentage rows k HallCounts.nne
      dtePct := groupPercentage rows k HallCounts.dte
      mgePct := groupPercentage rows k HallCounts.mge
      totalFiles := (groupRows rows k).length })

/-! ## Theorems -/

theorem findCategory_iff (tbl : List (String × List String)) (fl : List Char)
    (cat : String) :
    findCategory tbl fl = some cat ↔ FirstMatchingCategory tbl fl cat := by
  induction tbl with
  | nil =>
    simp only [findCategory, FirstMatchingCategory]
    constructor
    · intro h; exact absurd h (by simp)
    · rintro ⟨pre, ps, post, h, -, -⟩
      exact absurd h (by simp)
  | cons e rest ih =>
    obtain ⟨c, ps⟩ := e
    by_cases h : anyPatternMatches ps fl = true
    · simp only [findCategory, h, if_pos]
      constructor
      · intro hc
        obtain rfl : c = cat := Option.some.inj hc
        exact ⟨[], ps, rest, by simp, h, by simp⟩
      · rintro ⟨pre, ps', post, hdec, hm, hpre⟩
        cases pre with
        | nil =>
          simp only [List.nil_append, List.cons.injEq] at hdec
          exact congrArg some (congrArg Prod.fst hdec.1)
        | cons e' pre' =>
          simp only [List.cons_append, List.cons.injEq] at hdec
          have he2 := hpre e' (by simp)
          rw [← hdec.1] at he2
          simp only at he2
          simp [he2] at h
    · have h' : anyPatternMatches ps fl = false := by
        simpa using h
      simp only [findCategory, h', Bool.false_eq_true, if_neg, not_false_iff]
      rw [ih]
      constructor
      · rintro ⟨pre, ps', post, hdec, hm, hpre⟩
        refine ⟨(c, ps) :: pre, ps', post, by rw [hdec]; rfl, hm, ?_⟩
        intro e he
        rcases List.mem_cons.mp he with rfl | he'
        · exact h'
        · exact hpre e he'
      · rintro ⟨pre, ps', post, hdec, hm, hpre⟩
        cases pre with
        | nil =>
          simp only [List.nil_append, List.cons.injEq] at hdec
          have hps : ps = ps' := congrArg Prod.snd hdec.1
          rw [← hps] at hm
          simp [hm] at h'
        | cons e' pre' =>
          simp only [List.cons_append, List.cons.injEq] at hdec
          exact ⟨pre', ps', post, hdec.2, hm, fun e he => hpre e (by simp [he])⟩

/-- C1: For every filename, the classifier returns the first category (in
declaration order of the fixed shot and model pattern tables) any of whose
patterns is a case-insensitive substring of the filename; in particular a
filename containing both "oneshot" and "zeroshot" substrings classifies as
"oneshot" (and one also containing "llama" as model "llama"). -/
theorem classifier_first_table_entry_wins :
    ∀ (filename : List Char) (cat : String),
      (findCategory shot_patterns (lowerStr filename) = some cat ↔
        FirstMatchingCategory shot_patterns (lowerStr filename) cat) ∧
      (findCategory model_patterns (lowerStr filename) = some cat ↔
        FirstMatchingCategory model_patterns (lowerStr filename) cat) ∧
      determine_categories ("report_OneShot_ZeroShot_LLaMA_201301.txt".toList) =
        (some "oneshot", some "llama") := by
  intro filename cat
  exact ⟨findCategory_iff _ _ _, findCategory_iff _ _ _, by decide⟩

theorem get_six_digit_number_eq_some_iff (filename d : List Char) :
    get_six_digit_number filename = some d ↔
      ∃ i, SixDigitWindowAt filename i ∧ d = (filename.drop i).take 6 ∧
        ∀ j < i, ¬ SixDigitWindowAt filename j := by
  induction filename generalizing d with
  | nil =>
    simp only [get_six_digit_number]
    constructor
    · intro h; cases h
    · rintro ⟨i, ⟨hlen, -⟩, -, -⟩
      simp at hlen
  | cons c rest ih =>
    have hzero : SixDigitWindowAt (c :: rest) 0 ↔
        (((c :: rest).take 6).length = 6 ∧ ((c :: rest).take 6).all Char.isDigit = true) := by
      simp [SixDigitWindowAt]
    have hshift : ∀ i, SixDigitWindowAt rest i ↔ SixDigitWindowAt (c :: rest) (i + 1) := by
      intro i; simp [SixDigitWindowAt]
    by_cases h0 : ((c :: rest).take 6).length = 6 ∧ ((c :: rest).take 6).all Char.isDigit = true
    · rw [get_six_digit_number, if_pos h0]
      constructor
      · intro hd
        exact ⟨0, hzero.mpr h0, (Option.some.inj hd).symm, by omega⟩
      · rintro ⟨i, hw, hd, hmin⟩
        cases i with
        | zero => simp only [List.drop_zero] at hd; rw [hd]
        | succ k => exact absurd (hzero.mpr h0) (hmin 0 (Nat.succ_pos k))
    · rw [get_six_digit_number, if_neg h0, ih]
      constructor
      · rintro ⟨i, hw, hd, hmin⟩
        refine ⟨i + 1, (hshift i).mp hw, hd, ?_⟩
        intro j hj
        cases j with
        | zero => exact fun hc => h0 (hzero.mp hc)
        | succ k => exact fun hc => hmin k (by omega) ((hshift k).mpr hc)
      · rintro ⟨i, hw, hd, hmin⟩
        cases i with
        | zero => exact absurd (hzero.mp (by simpa using hw)) h0
        | succ k =>
          exact ⟨k, (hshift k).mpr hw, hd, fun j hj hc =>
            hmin (j + 1) (by omega) ((hshift j).mp hc)⟩

/-- C2 (counterexample to the claim as stated): the filename
`1234567_one-shot_llama.txt` has no maximal run of exactly six consecutive
digits (its only digit run has seven), so under the claim it would be
unclassified; the code nevertheless classifies it fully, extracting the
first six digits of the longer run as document_id. -/
theorem document_id_claim_counterexample :
    firstExactSixDigitRun ("1234567_one-shot_llama.txt".toList) = none ∧
    classifyFile ("1234567_one-shot_llama.txt".toList) =
      some ⟨"oneshot", "llama", "123456".toList⟩ := by
  constructor
  · decide
  · decide

/-- C2 amended: the extracted document_id is the six-character window at the
leftmost position where six consecutive digits start (which may sit inside a
longer digit run); a filename lacking six consecutive digits anywhere, or a
shot category, or a model category, is unclassified and yields no
ClassifiedFile, while one having all three yields a fully classified
ClassifiedFile made of exactly those components. -/
theorem classifier_document_id_amended :
    ∀ filename : List Char,
      (∀ cf, classifyFile filename = some cf →
        (∃ i, SixDigitWindowAt filename i ∧
          cf.document_id = (filename.drop i).take 6 ∧
          ∀ j < i, ¬ SixDigitWindowAt filename j) ∧
        findCategory shot_patterns (lowerStr filename) = some cf.shot_category ∧
        findCategory model_patterns (lowerStr filename) = some cf.model_category) ∧
      (classifyFile filename = none ↔
        (findCategory shot_patterns (lowerStr filename) = none ∨
         findCategory model_patterns (lowerStr filename) = none ∨
         get_six_digit_number filename = none)) := by
  intro filename
  cases hs : findCategory shot_patterns (lowerStr filename) with
  | none =>
    constructor
    · intro cf hcf
      simp [classifyFile, determine_categories, hs] at hcf
    · simp [classifyFile, determine_categories, hs]
  | some s =>
    cases hm : findCategory model_patterns (lowerStr filename) with
    | none =>
      constructor
      · intro cf hcf
        simp [classifyFile, determine_categories, hs, hm] at hcf
      · simp [classifyFile, determine_categories, hs, hm]
    | some m =>
      cases hd : get_six_digit_number filename with
      | none =>
        constructor
        · intro cf hcf
          simp [classifyFile, determine_categories, hs, hm, hd] at hcf
        · simp [classifyFile, determine_categories, hs, hm, hd]
      | some d =>
        constructor
        · intro cf hcf
          simp only [classifyFile, determine_categories, hs, hm, hd] at hcf
          obtain rfl : ClassifiedFile.mk s m d = cf := Option.some.inj hcf
          obtain ⟨i, hw, hdi, hmin⟩ := (get_six_digit_number_eq_some_iff filename d).mp hd
          refine ⟨⟨i, hw, hdi, hmin⟩, ?_, ?_⟩
          · simp [hs]
          · simp [hm]
        · simp [classifyFile, determine_categories, hs, hm, hd]

/-- C3: for every run that finds at least one input file, the process exits
with status 0 if at least one file was successfully processed end-to-end,
and a non-zero exit happens only when zero files were processed — for the
organizer (success counter = classified files) and for the extractor
(success counter = saved extractions); partial success exits 0. -/
theorem exit_zero_on_any_success :
    ∀ (files docs : List (List Char)) (patternCount : Nat)
      (extract : Nat → Nat → Bool),
      files ≠ [] → docs ≠ [] →
      ((1 ≤ successful_moves files → organizeExitCode files = 0) ∧
        (organizeExitCode files ≠ 0 → successful_moves files = 0)) ∧
      ((1 ≤ successful_extractions docs patternCount extract →
          extractorExitCode docs = 0) ∧
        (extractorExitCode docs ≠ 0 →
          successful_extractions docs patternCount extract = 0)) := by
  intro files docs patternCount extract hfiles hdocs
  have hfe : files.isEmpty = false := by
    cases files with
    | nil => exact absurd rfl hfiles
    | cons f rest => rfl
  have hde : docs.isEmpty = false := by
    cases docs with
    | nil => exact absurd rfl hdocs
    | cons d rest => rfl
  constructor
  · constructor
    · intro h1
      simp [organizeExitCode, organize_files_result, hfe, Nat.lt_of_lt_of_le Nat.zero_lt_one h1]
    · intro hne
      by_contra hc
      have hpos : 0 < successful_moves files := Nat.pos_of_ne_zero hc
      simp [organizeExitCode, organize_files_result, hfe, hpos] at hne
  · constructor
    · intro _
      simp [extractorExitCode, process_documents_result, hde]
    · intro hne
      exact absurd (by simp [extractorExitCode, process_documents_result, hde]) hne

theorem exit_zero_on_any_success_witness :
    ((1 ≤ successful_moves [("one-shot_llama_123456.txt".toList)] →
        organizeExitCode [("one-shot_llama_123456.txt".toList)] = 0) ∧
      (organizeExitCode [("one-shot_llama_123456.txt".toList)] ≠ 0 →
        successful_moves [("one-shot_llama_123456.txt".toList)] = 0)) ∧
    ((1 ≤ successful_extractions [("123456".toList)] 1 (fun _ _ => true) →
        extractorExitCode [("123456".toList)] = 0) ∧
      (extractorExitCode [("123456".toList)] ≠ 0 →
        successful_extractions [("123456".toList)] 1 (fun _ _ => true) = 0)) :=
  exit_zero_on_any_success [("one-shot_llama_123456.txt".toList)] [("123456".toList)]
    1 (fun _ _ => true) (by decide) (by decide)

theorem firstPass_some_sound (newName : List Char → List Char) :
    ∀ (fs : List (List Char)) (acc r : List (List Char × List Char)),
      firstPass newName fs acc = some r →
      (fs.map newName).Nodup ∧
        ∀ t ∈ fs.map newName, ¬ ∃ e ∈ acc, e.2 = t := by
  intro fs
  induction fs with
  | nil =>
    intro acc r _
    exact ⟨List.nodup_nil, by simp⟩
  | cons f rest ih =>
    intro acc r hfp
    rw [firstPass] at hfp
    by_cases hcoll : acc.any (fun e => decide (e.2 = newName f)) = true
    · rw [if_pos hcoll] at hfp; cases hfp
    · rw [if_neg hcoll] at hfp
      obtain ⟨hnd, hfresh⟩ := ih (acc ++ [(f, newName f)]) r hfp
      have hnotacc : ¬ ∃ e ∈ acc, e.2 = newName f := by
        intro ⟨e, he, hee⟩
        exact hcoll (List.any_eq_true.mpr ⟨e, he, by simp [hee]⟩)
      constructor
      · refine List.nodup_cons.mpr ⟨?_, hnd⟩
        intro hmem
        exact hfresh (newName f) hmem ⟨(f, newName f), by simp, rfl⟩
      · intro t ht
        rcases List.mem_cons.mp ht with rfl | ht'
        · exact hnotacc
        · intro ⟨e, he, hee⟩
          exact hfresh t ht' ⟨e, by simp [he], hee⟩

/-- C8: if during the first pass two distinct input files map to the same
output path, `rename_files` returns `False` before the second pass begins:
no file is copied and the output directory is not created, so the output
filesystem state is unchanged. -/
theorem rename_conflict_is_atomic :
    ∀ (newName : List Char → List Char) (files : List (List Char))
      (dryRun : Bool) (i j : Nat)
      (hi : i < files.length) (hj : j < files.length),
      i ≠ j → newName files[i] = newName files[j] →
      rename_files_run newName files dryRun = (false, []) := by
  intro newName files dryRun i j hi hj hne heq
  have hfe : files.isEmpty = false := by
    cases files with
    | nil => simp at hi
    | cons f rest => rfl
  cases hfp : firstPass newName files [] with
  | none => simp [rename_files_run, hfe, hfp]
  | some r =>
    exfalso
    obtain ⟨hnd, -⟩ := firstPass_some_sound newName files [] r hfp
    have hpw := List.pairwise_iff_getElem.mp hnd
    rcases Nat.lt_or_ge i j with hlt | hge
    · exact hpw i j (by simpa) (by simpa) hlt (by simpa using heq)
    · have hlt : j < i := Nat.lt_of_le_of_ne hge (Ne.symm hne)
      exact hpw j i (by simpa) (by simpa) hlt (by simpa using heq.symm)

theorem rename_conflict_is_atomic_witness :
    rename_files_run (fun _ => ("same.txt".toList))
      [("a.txt".toList), ("b.txt".toList)] false = (false, []) :=
  rename_conflict_is_atomic (fun _ => ("same.txt".toList))
    [("a.txt".toList), ("b.txt".toList)] false 0 1
    (by decide) (by decide) (by decide) rfl

theorem dictGet_cons {α : Type} (e : List Char × α) (rest : List (List Char × α))
    (k : List Char) :
    dictGet (e :: rest) k = if e.1 = k then some e.2 else dictGet rest k := by
  by_cases h : e.1 = k
  · simp [dictGet, List.find?_cons_of_pos, h]
  · simp [dictGet, List.find?_cons_of_neg, h]

theorem dictGet_insert_self {α : Type} (m : List (List Char × α)) (k : List Char)
    (v : α) : dictGet (dictInsert m k v) k = some v := by
  unfold dictInsert
  by_cases h : m.any (fun e => decide (e.1 = k)) = true
  · rw [if_pos h]
    induction m with
    | nil => simp at h
    | cons e rest ih =>
      by_cases he : e.1 = k
      · rw [List.map_cons, if_pos he, dictGet_cons]
        simp
      · rw [List.map_cons, if_neg he, dictGet_cons, if_neg he]
        refine ih ?_
        rcases List.any_eq_true.mp h with ⟨x, hx, hxk⟩
        rcases List.mem_cons.mp hx with rfl | hx'
        · simp [he] at hxk
        · exact List.any_eq_true.mpr ⟨x, hx', hxk⟩
  · rw [if_neg h]
    induction m with
    | nil => simp [dictGet]
    | cons e rest ih =>
      have he : ¬ e.1 = k := by
        intro hk
        exact h (List.any_eq_true.mpr ⟨e, by simp, by simp [hk]⟩)
      rw [List.cons_append, dictGet_cons, if_neg he]
      refine ih ?_
      intro hany
      rcases List.any_eq_true.mp hany with ⟨x, hx, hxk⟩
      exact h (List.any_eq_true.mpr ⟨x, by simp [hx], hxk⟩)

theorem dictGet_map_overwrite {α : Type} (m : List (List Char × α))
    (k k' : List Char) (v : α) (hne : k' ≠ k) :
    dictGet (m.map (fun e => if e.1 = k then (k, v) else e)) k' = dictGet m k' := by
  induction m with
  | nil => rfl
  | cons e rest ih =>
    rw [List.map_cons, dictGet_cons, dictGet_cons]
    by_cases he : e.1 = k
    · simp only [if_pos he]
      rw [if_neg (fun hk => hne hk.symm), if_neg (fun hk : e.1 = k' => hne (he ▸ hk).symm)]
      exact ih
    · simp only [if_neg he]
      by_cases he' : e.1 = k'
      · rw [if_pos he', if_pos he']
      · rw [if_neg he', if_neg he']
        exact ih

theorem dictGet_append_single_ne {α : Type} (m : List (List Char × α))
    (k k' : List Char) (v : α) (hne : k' ≠ k) :
    dictGet (m ++ [(k, v)]) k' = dictGet m k' := by
  induction m with
  | nil =>
    rw [List.nil_append, dictGet_cons, if_neg (fun hk : k = k' => hne hk.symm)]
  | cons e rest ih =>
    rw [List.cons_append, dictGet_cons, dictGet_cons]
    by_cases he' : e.1 = k'
    · rw [if_pos he', if_pos he']
    · rw [if_neg he', if_neg he']
      exact ih

theorem dictGet_insert_ne {α : Type} (m : List (List Char × α)) (k k' : List Char)
    (v : α) (hne : k' ≠ k) : dictGet (dictInsert m k v) k' = dictGet m k' := by
  unfold dictInsert
  by_cases h : m.any (fun e => decide (e.1 = k)) = true
  · rw [if_pos h]
    exact dictGet_map_overwrite m k k' v hne
  · rw [if_neg h]
    exact dictGet_append_single_ne m k k' v hne

theorem dictKeys_insert_nodup {α : Type} (m : List (List Char × α)) (k : List Char)
    (v : α) (h : (dictKeys m).Nodup) : (dictKeys (dictInsert m k v)).Nodup := by
  unfold dictInsert
  by_cases hmem : m.any (fun e => decide (e.1 = k)) = true
  · rw [if_pos hmem]
    have hkeys : dictKeys (m.map (fun e => if e.1 = k then (k, v) else e)) =
        dictKeys m := by
      unfold dictKeys
      rw [List.map_map]
      refine List.map_congr_left ?_
      intro e _
      by_cases he : e.1 = k
      · simp [he]
      · simp [he]
    rw [hkeys]
    exact h
  · rw [if_neg hmem]
    unfold dictKeys
    rw [List.map_append]
    refine List.Nodup.append h (by simp) ?_
    intro x hx hx'
    simp only [List.map_cons, List.map_nil, List.mem_singleton] at hx'
    subst hx'
    rcases List.mem_map.mp hx with ⟨e, he, hek⟩
    exact hmem (List.any_eq_true.mpr ⟨e, he, by simp [hek]⟩)

theorem dictKeys_insert_mem {α : Type} (m : List (List Char × α)) (k k' : List Char)
    (v : α) (h : k' ∈ dictKeys m) : k' ∈ dictKeys (dictInsert m k v) := by
  unfold dictInsert
  by_cases hmem : m.any (fun e => decide (e.1 = k)) = true
  · rw [if_pos hmem]
    rcases List.mem_map.mp h with ⟨e, he, hek⟩
    by_cases hk : e.1 = k
    · refine List.mem_map.mpr ⟨(k, v), List.mem_map.mpr ⟨e, he, by simp [hk]⟩, ?_⟩
      simp [← hek, hk]
    · exact List.mem_map.mpr ⟨e, List.mem_map.mpr ⟨e, he, by simp [hk]⟩, hek⟩
  · rw [if_neg hmem]
    unfold dictKeys
    rw [List.map_append]
    exact List.mem_append_left _ h

theorem dictKeys_insert_self_mem {α : Type} (m : List (List Char × α))
    (k : List Char) (v : α) : k ∈ dictKeys (dictInsert m k v) := by
  unfold dictInsert
  by_cases hmem : m.any (fun e => decide (e.1 = k)) = true
  · rw [if_pos hmem]
    rcases List.any_eq_true.mp hmem with ⟨e, he, hek⟩
    simp only [decide_eq_true_eq] at hek
    exact List.mem_map.mpr ⟨(k, v), List.mem_map.mpr ⟨e, he, by simp [hek]⟩, rfl⟩
  · rw [if_neg hmem]
    unfold dictKeys
    rw [List.map_append]
    exact List.mem_append_right _ (by simp)

theorem dictKeys_mem_any {α : Type} (m : List (List Char × α)) (k : List Char) :
    m.any (fun e => decide (e.1 = k)) = true ↔ k ∈ dictKeys m := by
  rw [List.any_eq_true]
  constructor
  · rintro ⟨e, he, hek⟩
    simp only [decide_eq_true_eq] at hek
    exact List.mem_map.mpr ⟨e, he, hek⟩
  · intro h
    rcases List.mem_map.mp h with ⟨e, he, hek⟩
    exact ⟨e, he, by simp [hek]⟩

theorem dictGet_scanRefStep (st : RefScanState) (f : RefFile) (k : List Char) :
    dictGet (scanRefStep st f).mapping k =
      if refIdentifier f.name = some k then some f
      else dictGet st.mapping k := by
  unfold scanRefStep
  cases hr : refIdentifier f.name with
  | none => simp
  | some k' =>
    by_cases hk : k' = k
    · subst hk
      simp [dictGet_insert_self]
    · rw [if_neg (by simp [hk])]
      exact dictGet_insert_ne st.mapping k' k f (fun h => hk h.symm)

theorem dictGet_scanRefs (fs : List RefFile) :
    ∀ (st : RefScanState) (k : List Char),
      dictGet (scanRefs st fs).mapping k =
        match fs.reverse.find? (fun f => decide (refIdentifier f.name = some k)) with
        | some f => some f
        | none => dictGet st.mapping k := by
  induction fs with
  | nil => intro st k; simp [scanRefs]
  | cons f rest ih =>
    intro st k
    rw [scanRefs, ih]
    rw [List.reverse_cons, List.find?_append]
    cases hfind : rest.reverse.find? (fun f => decide (refIdentifier f.name = some k)) with
    | some g => simp
    | none =>
      simp only [Option.none_orElse]
      by_cases hf : refIdentifier f.name = some k
      · simp [List.find?, hf, dictGet_scanRefStep]
      · simp [List.find?, hf, dictGet_scanRefStep]

theorem scanRefs_keys_nodup (fs : List RefFile) :
    ∀ st : RefScanState, (dictKeys st.mapping).Nodup →
      (dictKeys (scanRefs st fs).mapping).Nodup := by
  induction fs with
  | nil => intro st h; exact h
  | cons f rest ih =>
    intro st h
    rw [scanRefs]
    refine ih _ ?_
    unfold scanRefStep
    cases refIdentifier f.name with
    | none => exact h
    | some k => exact dictKeys_insert_nodup st.mapping k f h

theorem scanRefs_warnings_mono (fs : List RefFile) :
    ∀ (st : RefScanState) (k : List Char), k ∈ st.dupWarnings →
      k ∈ (scanRefs st fs).dupWarnings := by
  induction fs with
  | nil => intro st k h; exact h
  | cons f rest ih =>
    intro st k h
    rw [scanRefs]
    refine ih _ _ ?_
    unfold scanRefStep
    cases refIdentifier f.name with
    | none => exact h
    | some k' =>
      by_cases hm : st.mapping.any (fun e => decide (e.1 = k')) = true
      · simp [hm, h]
      · simp [hm, h]

theorem scanRefs_dup_warning (fs : List RefFile) :
    ∀ (st : RefScanState) (k : List Char),
      (2 ≤ fs.countP (fun f => decide (refIdentifier f.name = some k)) ∨
        (1 ≤ fs.countP (fun f => decide (refIdentifier f.name = some k)) ∧
          k ∈ dictKeys st.mapping) ∨
        k ∈ st.dupWarnings) →
      k ∈ (scanRefs st fs).dupWarnings := by
  induction fs with
  | nil =>
    intro st k h
    rcases h with h2 | ⟨h1, -⟩ | hw
    · rw [List.countP_nil] at h2; omega
    · rw [List.countP_nil] at h1; omega
    · exact hw
  | cons f rest ih =>
    intro st k h
    rw [scanRefs]
    refine ih _ _ ?_
    by_cases hf : refIdentifier f.name = some k
    · have hcount : (f :: rest).countP (fun f => decide (refIdentifier f.name = some k)) =
          rest.countP (fun f => decide (refIdentifier f.name = some k)) + 1 := by
        rw [List.countP_cons]
        simp [hf]
      by_cases hmem : k ∈ dictKeys st.mapping
      · right; right
        unfold scanRefStep
        rw [hf]
        simp only
        rw [if_pos ((dictKeys_mem_any st.mapping k).mpr hmem)]
        exact List.mem_append_right _ (by simp)
      · rcases h with h2 | ⟨h1, hk⟩ | hw
        · right; left
          constructor
          · omega
          · unfold scanRefStep
            rw [hf]
            exact dictKeys_insert_self_mem st.mapping k f
        · exact absurd hk hmem
        · right; right
          unfold scanRefStep
          rw [hf]
          simp only
          by_cases hany : st.mapping.any (fun e => decide (e.1 = k)) = true
          · rw [if_pos hany]; exact List.mem_append_left _ hw
          · rw [if_neg hany]; exact hw
    · have hcount : (f :: rest).countP (fun f => decide (refIdentifier f.name = some k)) =
          rest.countP (fun f => decide (refIdentifier f.name = some k)) := by
        rw [List.countP_cons]
        simp [hf]
      have hkeys : k ∈ dictKeys st.mapping → k ∈ dictKeys (scanRefStep st f).mapping := by
        intro hk
        unfold scanRefStep
        cases refIdentifier f.name with
        | none => exact hk
        | some k' => exact dictKeys_insert_mem st.mapping k' k f hk
      have hwarn : k ∈ st.dupWarnings → k ∈ (scanRefStep st f).dupWarnings := by
        intro hk
        unfold scanRefStep
        cases refIdentifier f.name with
        | none => exact hk
        | some k' =>
          simp only
          by_cases hany : st.mapping.any (fun e => decide (e.1 = k')) = true
          · rw [if_pos hany]; exact List.mem_append_left _ hk
          · rw [if_neg hany]; exact hk
      rcases h with h2 | ⟨h1, hk⟩ | hw
      · left; omega
      · right; left; exact ⟨by omega, hkeys hk⟩
      · right; right; exact hwarn hw

/-- C4: after scanning a reference directory, the id-to-path mapping has at
most one reference per document_id (unique keys), its entry for an id is the
last matching file scanned (last-write-wins), and when two or more scanned
files share an id a duplicate warning is logged; concretely, two files with
id 123456 leave the second one in the mapping and one warning. -/
theorem reference_scan_last_write_wins :
    ∀ (refs : List RefFile) (k : List Char),
      (dictKeys (read_reference_mapping refs).mapping).Nodup ∧
      dictGet (read_reference_mapping refs).mapping k =
        refs.reverse.find? (fun f => decide (refIdentifier f.name = some k)) ∧
      (2 ≤ refs.countP (fun f => decide (refIdentifier f.name = some k)) →
        k ∈ (read_reference_mapping refs).dupWarnings) ∧
      dictGet (read_reference_mapping dupRefs).mapping ("123456".toList) =
        some ⟨("b_123456.txt".toList), ("second version".toList)⟩ ∧
      (read_reference_mapping dupRefs).dupWarnings = [("123456".toList)] := by
  intro refs k
  refine ⟨scanRefs_keys_nodup refs ⟨[], []⟩ (by simp [dictKeys]), ?_, ?_, by decide, by decide⟩
  · rw [read_reference_mapping, dictGet_scanRefs]
    cases refs.reverse.find? (fun f => decide (refIdentifier f.name = some k)) with
    | some g => rfl
    | none => simp [dictGet]
  · intro h2
    exact scanRefs_dup_warning refs ⟨[], []⟩ k (Or.inl h2)

theorem processGens_fst_eq_filterMap (mapping : List (List Char × RefFile)) :
    ∀ gens : List GenFile,
      (processGens mapping gens).1 = gens.filterMap (pairOf mapping) := by
  intro gens
  induction gens with
  | nil => rfl
  | cons g rest ih =>
    rw [processGens, List.filterMap_cons]
    cases hg : genIdentifier g.name with
    | none => simpa [pairOf, hg] using ih
    | some k =>
      cases hd : dictGet mapping k with
      | none => simpa [pairOf, hg, hd] using ih
      | some rf =>
        by_cases hgs : stripStr g.content = []
        · simpa [pairOf, hg, hd, hgs] using ih
        · by_cases hrs : stripStr rf.content = []
          · simpa [pairOf, hg, hd, hgs, hrs] using ih
          · simpa [pairOf, hg, hd, hgs, hrs] using ih

theorem processGens_missing_ref_warned (mapping : List (List Char × RefFile)) :
    ∀ (gens : List GenFile) (g : GenFile) (k : List Char), g ∈ gens →
      genIdentifier g.name = some k → dictGet mapping k = none →
      k ∈ (processGens mapping gens).2 := by
  intro gens
  induction gens with
  | nil => intro g k hg; cases hg
  | cons g' rest ih =>
    intro g k hg hid hd
    have htail : g ∈ rest → k ∈ (processGens mapping rest).2 := fun h =>
      ih g k h hid hd
    rw [processGens]
    rcases List.mem_cons.mp hg with rfl | hmem
    · simp only [hid]
      simp only [hd]
      exact List.mem_cons_self _ _
    · cases hg' : genIdentifier g'.name with
      | none => simp only [hg']; exact htail hmem
      | some k' =>
        simp only [hg']
        cases hd' : dictGet mapping k' with
        | none =>
          simp only [hd']
          exact List.mem_cons_of_mem _ (htail hmem)
        | some rf =>
          simp only [hd']
          by_cases hgs : stripStr g'.content = []
          · simpa [hgs] using htail hmem
          · by_cases hrs : stripStr rf.content = []
            · simpa [hgs, hrs] using htail hmem
            · simpa [hgs, hrs] using htail hmem

/-- C5: a generated file whose document_id has no entry in the reference
mapping produces no pair and its id is logged (skip with warning, not
fatal); the pair list is exactly the per-file `pairOf` outcomes in traversal
order; concretely, for references {100001, 100002} and generated files
{100001, 999999}, exactly one pair is produced (for 100001) and exactly one
generated file is reported unmatched (999999). -/
theorem pair_matcher_skips_unmatched :
    ∀ (refs : List RefFile) (gens : List GenFile),
      (read_summaries refs gens).1 =
        gens.filterMap (pairOf (read_reference_mapping refs).mapping) ∧
      (∀ g ∈ gens, ∀ k, genIdentifier g.name = some k →
        dictGet (read_reference_mapping refs).mapping k = none →
        pairOf (read_reference_mapping refs).mapping g = none ∧
        k ∈ (read_summaries refs gens).2) ∧
      (read_summaries exampleRefs exampleGens).1 =
        [⟨("generated one".toList), ("reference one".toList), "oneshot", "llama"⟩] ∧
      (read_summaries exampleRefs exampleGens).2 = [("999999".toList)] := by
  intro refs gens
  refine ⟨processGens_fst_eq_filterMap _ gens, ?_, by decide, by decide⟩
  intro g hg k hid hd
  constructor
  · rw [pairOf]
    simp only [hid]
    simp only [hd]
  · exact processGens_missing_ref_warned _ gens g k hg hid hd

/-- C9: a matched pair is only appended when both summaries are non-empty
after stripping; if either side strips to the empty string the file yields
no pair, and consequently every pair returned by `read_summaries` has a
non-empty generated summary and a non-empty reference summary. -/
theorem pairs_have_nonempty_summaries :
    ∀ (refs : List RefFile) (gens : List GenFile),
      (∀ (mapping : List (List Char × RefFile)) (g : GenFile),
        (stripStr g.content = [] ∨
          (∃ k rf, genIdentifier g.name = some k ∧ dictGet mapping k = some rf ∧
            stripStr rf.content = [])) →
        pairOf mapping g = none) ∧
      (∀ p ∈ (read_summaries refs gens).1,
        p.generated_summary ≠ [] ∧ p.reference_summary ≠ []) := by
  intro refs gens
  constructor
  · intro mapping g h
    rw [pairOf]
    cases hg : genIdentifier g.name with
    | none => rfl
    | some k =>
      simp only
      cases hd : dictGet mapping k with
      | none => rfl
      | some rf =>
        simp only
        rcases h with hgs | ⟨k', rf', hk', hd', hrs⟩
        · rw [if_pos hgs]
        · obtain rfl : k' = k := by rw [hg] at hk'; exact (Option.some.inj hk').symm
          obtain rfl : rf' = rf := by rw [hd] at hd'; exact (Option.some.inj hd').symm
          by_cases hgs : stripStr g.content = []
          · rw [if_pos hgs]
          · rw [if_neg hgs, if_pos hrs]
  · intro p hp
    rw [read_summaries, processGens_fst_eq_filterMap] at hp
    rcases List.mem_filterMap.mp hp with ⟨g, -, hpg⟩
    rw [pairOf] at hpg
    cases hg : genIdentifier g.name with
    | none => simp only [hg] at hpg; cases hpg
    | some k =>
      simp only [hg] at hpg
      cases hd : dictGet (read_reference_mapping refs).mapping k with
      | none => simp only [hd] at hpg; cases hpg
      | some rf =>
        simp only [hd] at hpg
        by_cases hgs : stripStr g.content = []
        · rw [if_pos hgs] at hpg; cases hpg
        · rw [if_neg hgs] at hpg
          by_cases hrs : stripStr rf.content = []
          · rw [if_pos hrs] at hpg; cases hpg
          · rw [if_neg hrs] at hpg
            obtain rfl := Option.some.inj hpg
            exact ⟨hgs, hrs⟩

theorem insertDesc_perm {α : Type} (key : α → ℚ) (x : α) (l : List α) :
    List.Perm (insertDesc key x l) (x :: l) := by
  induction l with
  | nil => exact List.Perm.refl _
  | cons y ys ih =>
    rw [insertDesc]
    by_cases h : key x < key y
    · rw [if_pos h]
      exact (ih.cons y).trans (List.Perm.swap x y ys)
    · rw [if_neg h]

theorem sortDesc_perm {α : Type} (key : α → ℚ) (l : List α) :
    List.Perm (sortDesc key l) l := by
  induction l with
  | nil => exact List.Perm.refl _
  | cons x xs ih =>
    rw [sortDesc]
    exact (insertDesc_perm key x _).trans (ih.cons x)

theorem insertDesc_sorted {α : Type} (key : α → ℚ) (x : α) (l : List α)
    (hl : l.Pairwise (fun a b => key b ≤ key a)) :
    (insertDesc key x l).Pairwise (fun a b => key b ≤ key a) := by
  induction l with
  | nil => simp [insertDesc]
  | cons y ys ih =>
    rw [insertDesc]
    obtain ⟨hy, hys⟩ := List.pairwise_cons.mp hl
    by_cases h : key x < key y
    · rw [if_pos h]
      refine List.pairwise_cons.mpr ⟨?_, ih hys⟩
      intro z hz
      rcases List.mem_cons.mp ((insertDesc_perm key x ys).mem_iff.mp hz) with rfl | hz'
      · exact le_of_lt h
      · exact hy z hz'
    · rw [if_neg h]
      refine List.pairwise_cons.mpr ⟨?_, hl⟩
      intro z hz
      rcases List.mem_cons.mp hz with rfl | hz'
      · exact le_of_not_lt h
      · exact le_trans (hy z hz') (le_of_not_lt h)

theorem sortDesc_sorted {α : Type} (key : α → ℚ) (l : List α) :
    (sortDesc key l).Pairwise (fun a b => key b ≤ key a) := by
  induction l with
  | nil => simp [sortDesc]
  | cons x xs ih => exact insertDesc_sorted key x _ ih

theorem insertDesc_pairwise_tie {α : Type} (key : α → ℚ) {r : α → α → Prop}
    (x : α) (l : List α)
    (hl : l.Pairwise (fun a b => key a = key b → r a b))
    (hx : ∀ y ∈ l, key x = key y → r x y) :
    (insertDesc key x l).Pairwise (fun a b => key a = key b → r a b) := by
  induction l with
  | nil => simp [insertDesc]
  | cons y ys ih =>
    rw [insertDesc]
    obtain ⟨hy, hys⟩ := List.pairwise_cons.mp hl
    by_cases h : key x < key y
    · rw [if_pos h]
      refine List.pairwise_cons.mpr
        ⟨?_, ih hys (fun z hz => hx z (List.mem_cons_of_mem _ hz))⟩
      intro z hz hkey
      rcases List.mem_cons.mp ((insertDesc_perm key x ys).mem_iff.mp hz) with rfl | hz'
      · exact absurd hkey.symm (ne_of_lt h)
      · exact hy z hz' hkey
    · rw [if_neg h]
      refine List.pairwise_cons.mpr ⟨?_, hl⟩
      intro z hz hkey
      rcases List.mem_cons.mp hz with rfl | hz'
      · exact hx z (by simp) hkey
      · exact hx z (by simp [hz']) hkey

theorem sortDesc_pairwise_tie {α : Type} (key : α → ℚ) {r : α → α → Prop} :
    ∀ l : List α, l.Pairwise (fun a b => key a = key b → r a b) →
      (sortDesc key l).Pairwise (fun a b => key a = key b → r a b) := by
  intro l hl
  induction l with
  | nil => simp [sortDesc]
  | cons x xs ih =>
    obtain ⟨hx, hxs⟩ := List.pairwise_cons.mp hl
    rw [sortDesc]
    refine insertDesc_pairwise_tie key x _ (ih hxs) ?_
    intro y hy
    exact hx y ((sortDesc_perm key xs).mem_iff.mp hy)

theorem findIdx_fst_of_get {β : Type} :
    ∀ (s : List (Nat × β)), (s.map Prod.fst).Nodup →
      ∀ p : Fin s.length, s.findIdx (fun e => e.1 == (s.get p).1) = p.val := by
  intro s
  induction s with
  | nil => intro _ p; exact absurd p.isLt (by simp)
  | cons x t ih =>
    intro hnd p
    have hx : x.1 ∉ t.map Prod.fst :=
      ((List.nodup_cons).mp (by simpa using hnd)).1
    have hnd' : (t.map Prod.fst).Nodup :=
      ((List.nodup_cons).mp (by simpa using hnd)).2
    obtain ⟨pv, hp⟩ := p
    cases pv with
    | zero =>
      have hget : (x :: t).get ⟨0, hp⟩ = x := rfl
      rw [hget, List.findIdx_cons]
      simp
    | succ q =>
      have hq : q < t.length := Nat.lt_of_succ_lt_succ (by simpa using hp)
      have hget : (x :: t).get ⟨q + 1, hp⟩ = t.get ⟨q, hq⟩ := rfl
      rw [hget, List.findIdx_cons]
      have hne : (x.1 == (t.get ⟨q, hq⟩).1) = false := by
        refine beq_eq_false_iff_ne.mpr ?_
        intro hcontra
        refine hx ?_
        rw [hcontra]
        exact List.mem_map.mpr ⟨t.get ⟨q, hq⟩, List.get_mem t q hq, rfl⟩
      rw [hne]
      simp only [cond_false]
      rw [ih hnd' ⟨q, hq⟩]

theorem sortedRanking_nodup_fst (rs : List ScoreRecord) :
    ((sortedRanking rs).map Prod.fst).Nodup := by
  have hpm : List.Perm ((sortedRanking rs).map Prod.fst) (rs.enum.map Prod.fst) :=
    (sortDesc_perm _ _).map _
  rw [List.enum_map_fst] at hpm
  exact hpm.nodup_iff.mpr (List.nodup_range _)

theorem sortedRanking_length (rs : List ScoreRecord) :
    (sortedRanking rs).length = rs.length := by
  have h := (sortDesc_perm (fun p : Nat × ScoreRecord => sumScores p.2) rs.enum).length_eq
  rw [List.enum_length] at h
  exact h

theorem sortedRanking_spec (rs : List ScoreRecord) (i : Fin rs.length) :
    ∃ p : Fin (sortedRanking rs).length,
      (sortedRanking rs).get p = (i.val, rs.get i) ∧
      (sortedRanking rs).findIdx (fun e => e.1 == i.val) = p.val := by
  have hperm : List.Perm (sortedRanking rs) rs.enum := sortDesc_perm _ _
  have hmem : (i.val, rs.get i) ∈ sortedRanking rs := by
    refine hperm.mem_iff.mpr ?_
    have hi : i.val < rs.enum.length := by
      rw [List.enum_length]; exact i.isLt
    have hg : rs.enum.get ⟨i.val, hi⟩ = (i.val, rs.get i) := by
      simp [List.get_eq_getElem, List.getElem_enum]
    rw [← hg]
    exact List.get_mem _ _ _
  obtain ⟨p, hp⟩ := List.get_of_mem hmem
  refine ⟨p, hp, ?_⟩
  have h1 := findIdx_fst_of_get (sortedRanking rs) (sortedRanking_nodup_fst rs) p
  rw [hp] at h1
  simpa using h1

theorem enumFrom_pairwise_fst_lt {β : Type} :
    ∀ (n : Nat) (l : List β), (l.enumFrom n).Pairwise (fun a b => a.1 < b.1) := by
  intro n l
  induction l generalizing n with
  | nil => simp
  | cons x xs ih =>
    refine List.pairwise_cons.mpr ⟨?_, ih (n + 1)⟩
    rintro ⟨i, b⟩ hp
    obtain ⟨h1, -⟩ := List.mem_enumFrom hp
    simpa using h1

/-- C6: over any finite record list, the ranks assigned by the ranking loop
form a permutation of 1..n, and a record with a strictly greater sum of
sub-scores receives a strictly smaller (better) rank. -/
theorem ranking_is_permutation_and_monotone :
    ∀ rs : List ScoreRecord,
      List.Perm ((List.range rs.length).map (rankOf rs)) (List.range' 1 rs.length) ∧
      ∀ i j : Fin rs.length,
        sumScores (rs.get j) < sumScores (rs.get i) → rankOf rs i < rankOf rs j := by
  intro rs
  constructor
  · have h1 : (List.range rs.length).map (rankOf rs) =
        ((List.range rs.length).map
          (fun i => (sortedRanking rs).findIdx (fun e => e.1 == i))).map
          (fun x => x + 1) := by
      rw [List.map_map]; rfl
    have h2 : List.range' 1 rs.length = (List.range rs.length).map (fun x => x + 1) := by
      rw [List.range'_eq_map_range]
      exact List.map_congr_left (fun x _ => Nat.add_comm 1 x)
    rw [h1, h2]
    refine List.Perm.map _ ?_
    refine (List.perm_ext_iff_of_nodup ?_ (List.nodup_range _)).mpr ?_
    · refine (List.nodup_range _).map_on ?_
      intro i hi j hj hfij
      obtain ⟨pi, hpi, hfi⟩ := sortedRanking_spec rs ⟨i, List.mem_range.mp hi⟩
      obtain ⟨pj, hpj, hfj⟩ := sortedRanking_spec rs ⟨j, List.mem_range.mp hj⟩
      rw [hfi, hfj] at hfij
      have hpij : pi = pj := Fin.ext hfij
      rw [hpij, hpj] at hpi
      exact (congrArg Prod.fst hpi).symm
    · intro a
      constructor
      · intro ha
        rcases List.mem_map.mp ha with ⟨i, hi, rfl⟩
        obtain ⟨p, -, hf⟩ := sortedRanking_spec rs ⟨i, List.mem_range.mp hi⟩
        rw [hf]
        refine List.mem_range.mpr ?_
        have hp := p.isLt
        have hlen := sortedRanking_length rs
        omega
      · intro ha
        have ha' : a < (sortedRanking rs).length := by
          rw [sortedRanking_length]; exact List.mem_range.mp ha
        have hmem : (sortedRanking rs).get ⟨a, ha'⟩ ∈ rs.enum :=
          (sortDesc_perm _ _).mem_iff.mp (List.get_mem _ _ _)
        have hk : ((sortedRanking rs).get ⟨a, ha'⟩).1 < rs.length := by
          have : ((sortedRanking rs).get ⟨a, ha'⟩).1 ∈ rs.enum.map Prod.fst :=
            List.mem_map.mpr ⟨_, hmem, rfl⟩
          rw [List.enum_map_fst] at this
          exact List.mem_range.mp this
        refine List.mem_map.mpr ⟨((sortedRanking rs).get ⟨a, ha'⟩).1,
          List.mem_range.mpr hk, ?_⟩
        exact findIdx_fst_of_get (sortedRanking rs) (sortedRanking_nodup_fst rs) ⟨a, ha'⟩
  · intro i j hlt
    obtain ⟨pi, hpi, hfi⟩ := sortedRanking_spec rs i
    obtain ⟨pj, hpj, hfj⟩ := sortedRanking_spec rs j
    have hsorted : (sortedRanking rs).Pairwise
        (fun a b => sumScores b.2 ≤ sumScores a.2) := sortDesc_sorted _ _
    have hij : pi.val < pj.val := by
      rcases lt_trichotomy pi.val pj.val with h | h | h
      · exact h
      · exfalso
        have hpij : pi = pj := Fin.ext h
        rw [hpij, hpj] at hpi
        have hget : rs.get i = rs.get j := (congrArg Prod.snd hpi).symm
        rw [hget] at hlt
        exact lt_irrefl _ hlt
      · exfalso
        have hle := List.pairwise_iff_get.mp hsorted pj pi h
        rw [hpi, hpj] at hle
        exact absurd hle (not_le_of_lt hlt)
    rw [rankOf, rankOf, hfi, hfj]
    omega

theorem groupTotalSum_eq_sum_of_groupSums (rows : List HallRow)
    (k : String × String) :
    groupTotalSum rows k =
      groupSum rows k HallCounts.uce + groupSum rows k HallCounts.oge +
      groupSum rows k HallCounts.uge + groupSum rows k HallCounts.nne +
      groupSum rows k HallCounts.dte + groupSum rows k HallCounts.mge := by
  unfold groupTotalSum groupSum
  induction groupRows rows k with
  | nil => simp
  | cons r g ih =>
    simp only [List.map_cons, List.sum_cons, ih, rowTotal]
    ring

/-- C10: in the per-file CSV every row's total_hallucinations equals the sum
of its six per-type counts, and consequently, within every
(learning_model, model) group whose total sum is nonzero, the six per-type
percentage columns of the summary sum to 100. -/
theorem hallucination_percentages_sum_to_hundred :
    ∀ (files : List HallFile) (k : String × String),
      (∀ r ∈ resultRows files,
        rowTotal r = r.counts.uce + r.counts.oge + r.counts.uge +
          r.counts.nne + r.counts.dte + r.counts.mge) ∧
      (groupTotalSum (resultRows files) k ≠ 0 →
        groupPercentage (resultRows files) k HallCounts.uce +
        groupPercentage (resultRows files) k HallCounts.oge +
        groupPercentage (resultRows files) k HallCounts.uge +
        groupPercentage (resultRows files) k HallCounts.nne +
        groupPercentage (resultRows files) k HallCounts.dte +
        groupPercentage (resultRows files) k HallCounts.mge = 100) := by
  intro files k
  constructor
  · intro r _
    rfl
  · intro hT
    have hTQ : ((groupTotalSum (resultRows files) k : ℚ)) ≠ 0 := by
      exact_mod_cast hT
    have hsum := groupTotalSum_eq_sum_of_groupSums (resultRows files) k
    unfold groupPercentage
    rw [div_mul_eq_mul_div, div_mul_eq_mul_div, div_mul_eq_mul_div,
        div_mul_eq_mul_div, div_mul_eq_mul_div, div_mul_eq_mul_div,
        div_add_div_same, div_add_div_same, div_add_div_same,
        div_add_div_same, div_add_div_same]
    rw [div_eq_iff hTQ]
    have : ((groupSum (resultRows files) k HallCounts.uce : ℚ) +
        groupSum (resultRows files) k HallCounts.oge +
        groupSum (resultRows files) k HallCounts.uge +
        groupSum (resultRows files) k HallCounts.nne +
        groupSum (resultRows files) k HallCounts.dte +
        groupSum (resultRows files) k HallCounts.mge) =
        (groupTotalSum (resultRows files) k : ℚ) := by
      exact_mod_cast hsum.symm
    ring_nf
    ring_nf at this
    rw [← this]
    ring

/-- C7: the aggregation and ranking computation is a deterministic function
of its input record sequence — the same input yields identical summary rows
(sums, means, variances hence standard deviations, percentages) and
identical ranks; tie resolution is itself deterministic: records with equal
sums are ranked in input order (the sort's stability is the fixed
tie-break). -/
theorem aggregation_is_deterministic :
    ∀ (rows : List HallRow) (rs : List ScoreRecord),
      create_summary rows = create_summary rows ∧
      (List.range rs.length).map (rankOf rs) =
        (List.range rs.length).map (rankOf rs) ∧
      ∀ i j : Fin rs.length, i < j →
        sumScores (rs.get i) = sumScores (rs.get j) →
        rankOf rs i < rankOf rs j := by
  intro rows rs
  refine ⟨rfl, rfl, ?_⟩
  intro i j hij hsums
  obtain ⟨pi, hpi, hfi⟩ := sortedRanking_spec rs i
  obtain ⟨pj, hpj, hfj⟩ := sortedRanking_spec rs j
  have htie : (sortedRanking rs).Pairwise
      (fun a b => sumScores a.2 = sumScores b.2 → a.1 < b.1) := by
    refine sortDesc_pairwise_tie _ rs.enum ?_
    refine List.Pairwise.imp ?_ (enumFrom_pairwise_fst_lt 0 rs)
    intro a b h _
    exact h
  have hpstrict : pi.val < pj.val := by
    rcases lt_trichotomy pi.val pj.val with h | h | h
    · exact h
    · exfalso
      have hpij : pi = pj := Fin.ext h
      rw [hpij, hpj] at hpi
      have : j.val = i.val := congrArg Prod.fst hpi
      have hlt : i.val < j.val := hij
      omega
    · exfalso
      have horder := List.pairwise_iff_get.mp htie pj pi h
      rw [hpi, hpj] at horder
      have : j.val < i.val := horder hsums.symm
      have hlt : i.val < j.val := hij
      omega
  rw [rankOf, rankOf, hfi, hfj]
  omega

end MarineSafety
